import Mathlib

/-!
Verification of the xoriaz secret-splitting tool (src/main.rs).

The tool works on 256-bit secrets encoded as BIP39-style 24-word mnemonic
lines.  Three operations exist: `gen` (random lines), `split` (one source
file into N share files whose bytewise XOR reconstructs the source) and
`xor` (recombine K files line by line).  The development below embeds the
core of `main.rs` shallowly: byte buffers are lists of naturals, the
mnemonic codec is modelled from its specified contract as an abstract
boundary, file streams are lists of lines, the OS random source is an
explicit stream of buffers, and panics/`unwrap` failures are explicit
error values.
-/

namespace Xoriaz

/-- A byte buffer; entries play the role of `u8` values. -/
abbrev Bytes := List Nat

/-- The all-zero 32-byte buffer `[0u8; 32]`. -/
def zeros32 : Bytes := List.replicate 32 0

/-- Bytewise XOR, `for (s, b) in zip(&mut *buf, m) { *s ^= b }`. -/
def xor32 (a b : Bytes) : Bytes := List.zipWith Nat.xor a b

/-- Modelled from the spec: a text line of an input or output file, as seen
through the out-of-scope BIP39 codec boundary (`bip39::Mnemonic` is an
external collaborator: "the mnemonic wordlist and checksum algorithm itself
(treated as a codec with a known contract, not reimplemented here)").
A line is either a well-formed mnemonic carrying its entropy payload, or a
line that the codec rejects (unknown word, bad word count, bad checksum)
carrying its diagnostic message. -/
inductive Line where
  | mnem (entropy : Bytes)
  | invalid (msg : String)
deriving DecidableEq

/-- Modelled from the spec: the entropy byte lengths for which a BIP39
mnemonic exists (12/15/18/21/24 words give 16/20/24/28/32 bytes). -/
def validEntropyLengths : List Nat := [16, 20, 24, 28, 32]

/-- Modelled from the spec: `Mnemonic::parse_in_normalized(English, &str)`.
A well-formed mnemonic of any standard word count parses to its entropy;
anything else fails with a diagnostic message. -/
def parse_in_normalized (l : Line) : Except String Bytes :=
  match l with
  | .mnem e => if e.length ∈ validEntropyLengths then .ok e else .error "bad word count"
  | .invalid msg => .error msg

/-- Modelled from the spec: `Mnemonic::from_entropy(&buf)`, total on every
buffer whose length is a standard entropy size ("`encode(secret: Secret) ->
Mnemonic`: total function, no failure path"). -/
def from_entropy (b : Bytes) : Option Line :=
  if b.length ∈ validEntropyLengths then some (.mnem b) else none

/-- The entropy payload of a line (meaningful on `Line.mnem`). -/
def entOf : Line → Bytes
  | .mnem e => e
  | .invalid _ => []

/-- The first line of a file suffix (meaningful on nonempty suffixes). -/
def headLine (f : List Line) : Line := f.headD (Line.invalid "")

/-- A line the whole pipeline accepts: a mnemonic with a 32-byte payload. -/
def isValid32 : Line → Bool
  | .mnem e => e.length == 32
  | .invalid _ => false

/-- The ways an invocation can abort, one constructor per `panic!`,
`assert_eq!` or `.unwrap()` in `main.rs`, carrying exactly the data that
the corresponding message interpolates. -/
inductive RunError where
  /-- `panic!("error on line {i}: {e}")` in `split`. -/
  | parseSplit (line : Nat) (msg : String)
  /-- `panic!("error on line {i} in file {f}: {e}")` in `xor_inner`. -/
  | parseXor (line f : Nat) (msg : String)
  /-- `assert_eq!(len, 32)` in `split` / `xor_inner`; carries the length found. -/
  | assertLen (got : Nat)
  /-- `panic!("file {f} suddenly ended")` in `xor_inner`. -/
  | suddenlyEnded (f : Nat)
  /-- `panic!("file {f} continues longer than previous file")` in `xor_inner`. -/
  | continuesLonger (f : Nat)
  /-- a `Mnemonic::from_entropy(..).unwrap()` panic. -/
  | unwrapPanic
deriving DecidableEq

/-- Whether an abort message names the offending line (and, for the
combiner, file): true exactly for the two mnemonic-decode panics. -/
def reportedWithLine : RunError → Bool
  | .parseSplit _ _ => true
  | .parseXor _ _ _ => true
  | _ => false

/-! ## Generator (`gen_inner`) -/

/-- One `gen_inner` iteration step: draw `rnd ctr`, encode, append; `lines`
iterations in total. -/
def genGo (rnd : Nat → Bytes) : Nat → Nat → Except RunError (List Line)
  | _, 0 => .ok []
  | ctr, n + 1 =>
    match from_entropy (rnd ctr) with
    | none => .error .unwrapPanic
    | some m => (genGo rnd (ctr + 1) n).map (m :: ·)

/-- `gen_inner(w, lines)`: the sequence of lines written to `w`, with the
OS random source made explicit as the stream `rnd`. -/
def gen_inner (rnd : Nat → Bytes) (lines : Nat) : Except RunError (List Line) :=
  genGo rnd 0 lines

/-! ## Splitter (`split`) -/

/-- The inner `for (buf, file) in zip(&mut bufs, &mut *rest)` loop of
`split`, for one source line: starting from accumulator `e`, draw `k` fresh
pads from the stream at position `ctr`, XOR each into the accumulator, and
collect the encoded pad lines in destination order.  Returns the final
accumulator and the `k` pad lines. -/
def splitPads (pads : Nat → Bytes) : Nat → Bytes → Nat → Except RunError (Bytes × List Line)
  | _, e, 0 => .ok (e, [])
  | ctr, e, k + 1 =>
    match from_entropy (pads ctr) with
    | none => .error .unwrapPanic
    | some padLine =>
      (splitPads pads (ctr + 1) (xor32 e (pads ctr)) k).map fun r => (r.1, padLine :: r.2)

/-- The `while source.read_line(..)` loop of `split`: `k` is the number of
"rest" destinations (`N - 1`), `i` the 0-based line counter, `ctr` the
position in the pad stream.  Returns the lines of the first destination and
the lines of each of the `k` rest destinations. -/
def splitGo (pads : Nat → Bytes) (k : Nat) :
    List Line → Nat → Nat → Except RunError (List Line × List (List Line))
  | [], _, _ => .ok ([], List.replicate k [])
  | l :: ls, i, ctr =>
    match parse_in_normalized l with
    | .error e => .error (.parseSplit i e)
    | .ok src =>
      if src.length = 32 then
        match splitPads pads ctr src k with
        | .error e => .error e
        | .ok (acc, padLines) =>
          match from_entropy acc with
          | none => .error .unwrapPanic
          | some firstLine =>
            (splitGo pads k ls (i + 1) (ctr + k)).map fun r =>
              (firstLine :: r.1, List.zipWith List.cons padLines r.2)
      else .error (.assertLen src.length)

/-- `split`: split the source lines over `k + 1` destination files (the
first destination plus `k` pad destinations), with `OsRng` made explicit as
the pad stream `pads`. -/
def split (pads : Nat → Bytes) (lines : List Line) (k : Nat) :
    Except RunError (List Line × List (List Line)) :=
  splitGo pads k lines 0 0

/-! ## Combiner (`xor_inner`) -/

/-- The `for file in &mut *inputs` loop of one `xor_inner` round: `fs` is
the list of unread suffixes of the input files, `f` the count of files that
produced data so far this round, `finishing` and `acc` the loop state.
Returns the new suffixes, the `finishing` flag and the accumulator. -/
def xorRound (i : Nat) : List (List Line) → Nat → Bool → Bytes →
    Except RunError (List (List Line) × Bool × Bytes)
  | [], _, finishing, acc => .ok ([], finishing, acc)
  | [] :: restFiles, f, finishing, acc =>
    if f = 0 then
      (xorRound i restFiles f true acc).map fun r => ([] :: r.1, r.2)
    else if finishing = false then
      .error (.suddenlyEnded f)
    else
      (xorRound i restFiles f finishing acc).map fun r => ([] :: r.1, r.2)
  | (l :: ls) :: restFiles, f, finishing, acc =>
    if finishing then .error (.continuesLonger f)
    else
      match parse_in_normalized l with
      | .error e => .error (.parseXor i f e)
      | .ok m =>
        if m.length = 32 then
          (xorRound i restFiles (f + 1) finishing (xor32 acc m)).map fun r => (ls :: r.1, r.2)
        else .error (.assertLen m.length)

/-- The `while !finishing` loop of `xor_inner`: each iteration runs one
round, then unconditionally encodes and writes the accumulator, resets it
and advances the round counter `i`.  `fuel` bounds the number of
iterations; `none` models divergence (never reached on the argument
`xor_inner` passes). -/
def xorGo : Nat → Nat → List (List Line) → Option (Except RunError (List Line))
  | 0, _, _ => none
  | fuel + 1, i, fs =>
    match xorRound i fs 0 false zeros32 with
    | .error e => some (.error e)
    | .ok (rs, fin, acc) =>
      match from_entropy acc with
      | none => some (.error .unwrapPanic)
      | some outLine =>
        if fin then some (.ok [outLine])
        else (xorGo fuel (i + 1) rs).map fun r => r.map (outLine :: ·)

/-- `xor_inner(w, inputs)`: the sequence of lines written to `w` when
combining the input files `fs`, or the abort that cut the run short.  The
fuel `total number of input lines + 1` is enough for every run with at
least one input file. -/
def xor_inner (fs : List (List Line)) : Option (Except RunError (List Line)) :=
  xorGo ((fs.map List.length).sum + 1) 0 fs

/-! ## Filesystem model for `create_files` -/

/-- A filesystem namespace: paths (naturals) to file contents (`none` when
no file exists at the path). -/
def FS := Nat → Option Nat

/-- Point update of a filesystem. -/
def fsUpdate (fs : FS) (p : Nat) (v : Option Nat) : FS :=
  fun q => if q = p then v else fs q

/-- `std::fs::remove_file` over a list of paths, in order. -/
def removeList (fs : FS) (ps : List Nat) : FS :=
  ps.foldl (fun f p => fsUpdate f p none) fs

/-- The loop of `create_files`: `created` is the list of paths already
exclusively created this invocation (the `files` vector paired, via
`zip(files, paths)`, with its paths).  A path that already exists makes
`OpenOptions::new().create_new(true)` fail: every created path is removed
and the invocation reports failure (`false`). -/
def create_files_go (fs : FS) (created : List Nat) : List Nat → FS × Bool
  | [] => (fs, true)
  | p :: rest =>
    if (fs p).isSome then (removeList fs created, false)
    else create_files_go (fsUpdate fs p (some 0)) (created ++ [p]) rest

/-- `create_files(paths)` acting on the filesystem `fs`. -/
def create_files (fs : FS) (paths : List Nat) : FS × Bool :=
  create_files_go fs [] paths

/-! ## Specification-side closed forms -/

/-- The `k` consecutive pads drawn from the stream starting at `ctr`. -/
def padsFrom (pads : Nat → Bytes) (ctr : Nat) : Nat → List Bytes
  | 0 => []
  | k + 1 => pads ctr :: padsFrom pads (ctr + 1) k

/-- What `split` writes to its first destination: line `i` is the source
secret XORed with all `k` pads drawn for that line. -/
def splitFirstSpec (pads : Nat → Bytes) (k : Nat) : List Line → Nat → List Line
  | [], _ => []
  | l :: ls, ctr =>
    Line.mnem (List.foldl xor32 (entOf l) (padsFrom pads ctr k)) ::
      splitFirstSpec pads k ls (ctr + k)

/-- What `split` writes to its `k` remaining destinations: destination `j`
holds, at line `i`, the encoding of the fresh pad drawn for `(i, j)`. -/
def splitRestSpec (pads : Nat → Bytes) (k : Nat) : List Line → Nat → List (List Line)
  | [], _ => List.replicate k []
  | _ :: ls, ctr =>
    List.zipWith List.cons ((padsFrom pads ctr k).map Line.mnem)
      (splitRestSpec pads k ls (ctr + k))

/-- The accumulator after one combiner round: XOR of the first line of
every file, folded over the files in order, starting from `acc`. -/
def roundAcc (fs : List (List Line)) (acc : Bytes) : Bytes :=
  fs.foldl (fun a f => xor32 a (entOf (headLine f))) acc

/-- The per-row XOR combinations of `L` rows across the files `fs`: row `r`
is the encoding of the XOR of the decoded entropy at row `r` of every
file. -/
def rowXors : Nat → List (List Line) → List Line
  | 0, _ => []
  | L + 1, fs => Line.mnem (roundAcc fs zeros32) :: rowXors L (fs.map List.tail)

/-! ## XOR algebra on byte buffers -/

theorem length_xor32 (a b : Bytes) : (xor32 a b).length = min a.length b.length := by
  simp [xor32]

theorem xor32_assoc (a b c : Bytes) : xor32 (xor32 a b) c = xor32 a (xor32 b c) := by
  induction a generalizing b c with
  | nil => simp [xor32]
  | cons x xs ih =>
    cases b with
    | nil => simp [xor32]
    | cons y ys =>
      cases c with
      | nil => simp [xor32]
      | cons z zs =>
        simp only [xor32, List.zipWith_cons_cons, List.cons.injEq]
        exact ⟨Nat.xor_assoc x y z, ih ys zs⟩

theorem xor32_comm (a b : Bytes) : xor32 a b = xor32 b a := by
  induction a generalizing b with
  | nil => cases b <;> simp [xor32]
  | cons x xs ih =>
    cases b with
    | nil => simp [xor32]
    | cons y ys =>
      simp only [xor32, List.zipWith_cons_cons, List.cons.injEq]
      exact ⟨Nat.xor_comm x y, ih ys⟩

theorem xor32_self (a : Bytes) : xor32 a a = List.replicate a.length 0 := by
  induction a with
  | nil => simp [xor32]
  | cons x xs ih =>
    simp only [xor32, List.zipWith_cons_cons, List.length_cons, List.replicate_succ,
      List.cons.injEq]
    exact ⟨Nat.xor_self x, ih⟩

theorem xor32_replicate_zero_left (a : Bytes) (n : Nat) :
    xor32 (List.replicate n 0) a = a.take n := by
  induction a generalizing n with
  | nil => simp [xor32]
  | cons x xs ih =>
    cases n with
    | zero => simp [xor32]
    | succ m =>
      simp only [xor32, List.replicate_succ, List.zipWith_cons_cons, List.take_succ_cons,
        List.cons.injEq]
      exact ⟨Nat.zero_xor x, ih m⟩

theorem xor32_replicate_zero_right (a : Bytes) (n : Nat) :
    xor32 a (List.replicate n 0) = a.take n := by
  rw [xor32_comm]; exact xor32_replicate_zero_left a n

theorem xor32_zeros_left (a : Bytes) (h : a.length = 32) : xor32 zeros32 a = a := by
  rw [zeros32, xor32_replicate_zero_left, ← h, List.take_length]

theorem xor32_zeros_right (a : Bytes) (h : a.length = 32) : xor32 a zeros32 = a := by
  rw [xor32_comm]; exact xor32_zeros_left a h

theorem zeros32_length : zeros32.length = 32 := by simp [zeros32]

theorem length_foldl_xor32 (P : List Bytes) (e : Bytes) (he : e.length = 32)
    (hP : ∀ p ∈ P, p.length = 32) : (List.foldl xor32 e P).length = 32 := by
  induction P generalizing e with
  | nil => simpa using he
  | cons p ps ih =>
    have hp : p.length = 32 := hP p (by simp)
    refine ih (xor32 e p) ?_ fun q hq => hP q (by simp [hq])
    simp [length_xor32, he, hp]

/-- Folding pads into an accumulator factors as a single XOR with the
joint XOR of the pads. -/
theorem foldl_xor32_factor (P : List Bytes) (e : Bytes) (he : e.length = 32)
    (hP : ∀ p ∈ P, p.length = 32) :
    List.foldl xor32 e P = xor32 e (List.foldl xor32 zeros32 P) := by
  induction P generalizing e with
  | nil => simp [xor32_zeros_right e he]
  | cons p ps ih =>
    have hp : p.length = 32 := hP p (by simp)
    have hP2 : ∀ q ∈ ps, q.length = 32 := fun q hq => hP q (by simp [hq])
    have h1 : List.foldl xor32 (xor32 e p) ps =
        xor32 (xor32 e p) (List.foldl xor32 zeros32 ps) :=
      ih (xor32 e p) (by simp [length_xor32, he, hp]) hP2
    have h2 : List.foldl xor32 (xor32 zeros32 p) ps =
        xor32 (xor32 zeros32 p) (List.foldl xor32 zeros32 ps) :=
      ih (xor32 zeros32 p) (by simp [length_xor32, zeros32_length, hp]) hP2
    rw [List.foldl_cons, List.foldl_cons, h1, h2, xor32_zeros_left p hp, xor32_assoc]

/-- XORing the same pads in twice cancels: the algebraic heart of the
split/recombine inverse law. -/
theorem foldl_xor32_twice (P : List Bytes) (e : Bytes) (he : e.length = 32)
    (hP : ∀ p ∈ P, p.length = 32) :
    List.foldl xor32 (List.foldl xor32 e P) P = e := by
  have hS : (List.foldl xor32 zeros32 P).length = 32 :=
    length_foldl_xor32 P zeros32 zeros32_length hP
  have h1 := foldl_xor32_factor P e he hP
  have h2 : (List.foldl xor32 e P).length = 32 := length_foldl_xor32 P e he hP
  rw [foldl_xor32_factor P _ h2 hP, h1, xor32_assoc, xor32_self, hS]
  exact xor32_zeros_right e he

/-! ## Codec and validity helpers -/

theorem from_entropy_of_length32 (b : Bytes) (h : b.length = 32) :
    from_entropy b = some (Line.mnem b) := by
  simp [from_entropy, h, validEntropyLengths]

theorem parse_mnem32 (e : Bytes) (h : e.length = 32) :
    parse_in_normalized (Line.mnem e) = .ok e := by
  simp [parse_in_normalized, h, validEntropyLengths]

theorem isValid32_iff (l : Line) :
    isValid32 l = true ↔ ∃ e, l = Line.mnem e ∧ e.length = 32 := by
  cases l with
  | mnem e => simp [isValid32]
  | invalid m => simp [isValid32]

theorem head_of_valid (file : List Line) (L : Nat) (hlen : file.length = L + 1)
    (hv : file.all isValid32 = true) :
    ∃ e t, file = Line.mnem e :: t ∧ e.length = 32 := by
  cases file with
  | nil => simp at hlen
  | cons l t =>
    have hl : isValid32 l = true := by
      have := (List.all_eq_true.mp hv) l (by simp)
      simpa using this
    obtain ⟨e, rfl, he⟩ := (isValid32_iff l).mp hl
    exact ⟨e, t, rfl, he⟩

/-! ## Combiner round lemmas -/

theorem xorRound_data (i : Nat) :
    ∀ (fs : List (List Line)) (f : Nat) (acc : Bytes),
    (∀ file ∈ fs, ∃ e t, file = Line.mnem e :: t ∧ e.length = 32) →
    xorRound i fs f false acc = .ok (fs.map List.tail, false, roundAcc fs acc) := by
  intro fs
  induction fs with
  | nil => intro f acc _; simp [xorRound, roundAcc]
  | cons file rest ih =>
    intro f acc h
    obtain ⟨e, t, hfile, he⟩ := h file (by simp)
    subst hfile
    have hrest : ∀ g ∈ rest, ∃ e t, g = Line.mnem e :: t ∧ e.length = 32 :=
      fun g hg => h g (by simp [hg])
    simp [xorRound, parse_mnem32 e he, he, ih (f + 1) (xor32 acc e) hrest,
      roundAcc, headLine, entOf, Except.map]

theorem xorRound_empty_fin (i : Nat) :
    ∀ (fs : List (List Line)) (acc : Bytes), (∀ file ∈ fs, file = []) →
    xorRound i fs 0 true acc = .ok (fs, true, acc) := by
  intro fs
  induction fs with
  | nil => intro acc _; simp [xorRound]
  | cons file rest ih =>
    intro acc h
    have hfile : file = [] := h file (by simp)
    subst hfile
    have hrest : ∀ g ∈ rest, g = [] := fun g hg => h g (by simp [hg])
    simp [xorRound, ih acc hrest, Except.map]

theorem xorRound_allEmpty (i : Nat) (fs : List (List Line)) (acc : Bytes)
    (hne : fs ≠ []) (h : ∀ file ∈ fs, file = []) :
    xorRound i fs 0 false acc = .ok (fs, true, acc) := by
  cases fs with
  | nil => exact absurd rfl hne
  | cons file rest =>
    have hfile : file = [] := h file (by simp)
    subst hfile
    have hrest : ∀ g ∈ rest, g = [] := fun g hg => h g (by simp [hg])
    simp [xorRound, xorRound_empty_fin i rest acc hrest, Except.map]

theorem roundAcc_length :
    ∀ (fs : List (List Line)) (acc : Bytes), acc.length = 32 →
    (∀ file ∈ fs, ∃ e t, file = Line.mnem e :: t ∧ e.length = 32) →
    (roundAcc fs acc).length = 32 := by
  intro fs
  induction fs with
  | nil => intro acc ha _; simpa [roundAcc] using ha
  | cons file rest ih =>
    intro acc ha h
    obtain ⟨e, t, hfile, he⟩ := h file (by simp)
    subst hfile
    have hrest : ∀ g ∈ rest, ∃ e t, g = Line.mnem e :: t ∧ e.length = 32 :=
      fun g hg => h g (by simp [hg])
    have : (xor32 acc e).length = 32 := by simp [length_xor32, ha, he]
    simpa [roundAcc, headLine, entOf] using ih (xor32 acc e) this hrest

/-- Closed form of a successful combiner run: with at least one input file
and every file holding exactly `L` well-formed 24-word lines, the run
succeeds and writes the `L` per-row XOR lines followed by the encoding of
the untouched all-zero accumulator of the terminating round. -/
theorem xorGo_ok_of_valid :
    ∀ (L : Nat) (fs : List (List Line)) (fuel i : Nat), fs ≠ [] →
    (∀ file ∈ fs, file.length = L ∧ file.all isValid32 = true) →
    L + 1 ≤ fuel →
    xorGo fuel i fs = some (.ok (rowXors L fs ++ [Line.mnem zeros32])) := by
  intro L
  induction L with
  | zero =>
    intro fs fuel i hne h hfuel
    obtain ⟨m, rfl⟩ := Nat.exists_eq_add_of_le hfuel
    have hempty : ∀ file ∈ fs, file = [] := fun file hf =>
      List.length_eq_zero.mp (h file hf).1
    rw [Nat.add_comm 1 m]
    simp [xorGo, xorRound_allEmpty i fs zeros32 hne hempty,
      from_entropy_of_length32 zeros32 zeros32_length, rowXors]
  | succ L ih =>
    intro fs fuel i hne h hfuel
    obtain ⟨m, rfl⟩ := Nat.exists_eq_add_of_le hfuel
    have hgood : ∀ file ∈ fs, ∃ e t, file = Line.mnem e :: t ∧ e.length = 32 :=
      fun file hf => head_of_valid file L (h file hf).1 (h file hf).2
    have hacc : (roundAcc fs zeros32).length = 32 :=
      roundAcc_length fs zeros32 zeros32_length hgood
    have htails : ∀ g ∈ fs.map List.tail, g.length = L ∧ g.all isValid32 = true := by
      intro g hg
      obtain ⟨file, hf, rfl⟩ := List.mem_map.mp hg
      obtain ⟨e, t, rfl, _⟩ := hgood file hf
      obtain ⟨hlen, hall⟩ := h _ hf
      refine ⟨by simpa using hlen, ?_⟩
      simp only [List.all_cons, Bool.and_eq_true] at hall
      simpa using hall.2
    have hne2 : fs.map List.tail ≠ [] := by
      cases fs with
      | nil => exact absurd rfl hne
      | cons a b => simp
    have hfuel2 : L + 1 ≤ L + 1 + m := by omega
    have hrec := ih (fs.map List.tail) (L + 1 + m) (i + 1) hne2 htails hfuel2
    have hstep : L + 2 + m = (L + 1 + m) + 1 := by omega
    rw [hstep]
    simp [xorGo, xorRound_data i fs 0 zeros32 hgood,
      from_entropy_of_length32 _ hacc, hrec, rowXors, Except.map]

/-! ## Splitter closed form -/

theorem padsFrom_length (pads : Nat → Bytes) :
    ∀ (k ctr : Nat), (padsFrom pads ctr k).length = k := by
  intro k
  induction k with
  | zero => intro ctr; rfl
  | succ k ih => intro ctr; simp [padsFrom, ih (ctr + 1)]

theorem padsFrom_mem_length32 (pads : Nat → Bytes) (hp : ∀ n, (pads n).length = 32) :
    ∀ (k ctr : Nat), ∀ p ∈ padsFrom pads ctr k, p.length = 32 := by
  intro k
  induction k with
  | zero => intro ctr p hmem; simp [padsFrom] at hmem
  | succ k ih =>
    intro ctr p hmem
    rcases (by simpa [padsFrom] using hmem : p = pads ctr ∨ p ∈ padsFrom pads (ctr + 1) k) with
      h | h
    · rw [h]; exact hp ctr
    · exact ih (ctr + 1) p h

theorem splitPads_eq (pads : Nat → Bytes) (hp : ∀ n, (pads n).length = 32) :
    ∀ (k ctr : Nat) (e : Bytes),
    splitPads pads ctr e k =
      .ok (List.foldl xor32 e (padsFrom pads ctr k), (padsFrom pads ctr k).map Line.mnem) := by
  intro k
  induction k with
  | zero => intro ctr e; simp [splitPads, padsFrom]
  | succ k ih =>
    intro ctr e
    simp [splitPads, from_entropy_of_length32 (pads ctr) (hp ctr), ih (ctr + 1),
      padsFrom, Except.map]

theorem splitGo_eq (pads : Nat → Bytes) (hp : ∀ n, (pads n).length = 32) (k : Nat) :
    ∀ (lines : List Line) (i ctr : Nat), lines.all isValid32 = true →
    splitGo pads k lines i ctr =
      .ok (splitFirstSpec pads k lines ctr, splitRestSpec pads k lines ctr) := by
  intro lines
  induction lines with
  | nil => intro i ctr _; simp [splitGo, splitFirstSpec, splitRestSpec]
  | cons l ls ih =>
    intro i ctr hv
    simp only [List.all_cons, Bool.and_eq_true] at hv
    obtain ⟨e, rfl, he⟩ := (isValid32_iff l).mp hv.1
    have hacc : (List.foldl xor32 e (padsFrom pads ctr k)).length = 32 :=
      length_foldl_xor32 _ e he (padsFrom_mem_length32 pads hp k ctr)
    simp [splitGo, parse_mnem32 e he, he, splitPads_eq pads hp k ctr e,
      from_entropy_of_length32 _ hacc, ih (i + 1) (ctr + k) hv.2,
      splitFirstSpec, splitRestSpec, entOf, Except.map]

theorem splitFirstSpec_length (pads : Nat → Bytes) (k : Nat) :
    ∀ (lines : List Line) (ctr : Nat),
    (splitFirstSpec pads k lines ctr).length = lines.length := by
  intro lines
  induction lines with
  | nil => intro ctr; rfl
  | cons l ls ih => intro ctr; simp [splitFirstSpec, ih (ctr + k)]

theorem splitFirstSpec_valid (pads : Nat → Bytes) (hp : ∀ n, (pads n).length = 32) (k : Nat) :
    ∀ (lines : List Line) (ctr : Nat), lines.all isValid32 = true →
    (splitFirstSpec pads k lines ctr).all isValid32 = true := by
  intro lines
  induction lines with
  | nil => intro ctr _; rfl
  | cons l ls ih =>
    intro ctr hv
    simp only [List.all_cons, Bool.and_eq_true] at hv
    obtain ⟨e, rfl, he⟩ := (isValid32_iff l).mp hv.1
    have hacc : (List.foldl xor32 (entOf (Line.mnem e)) (padsFrom pads ctr k)).length = 32 :=
      length_foldl_xor32 _ _ (by simpa [entOf] using he) (padsFrom_mem_length32 pads hp k ctr)
    simp [splitFirstSpec, List.all_cons, isValid32, hacc, ih (ctr + k) hv.2]

theorem splitRestSpec_length (pads : Nat → Bytes) (k : Nat) :
    ∀ (lines : List Line) (ctr : Nat), (splitRestSpec pads k lines ctr).length = k := by
  intro lines
  induction lines with
  | nil => intro ctr; simp [splitRestSpec]
  | cons l ls ih =>
    intro ctr
    simp [splitRestSpec, padsFrom_length, ih (ctr + k)]

theorem mem_zipWith_cons :
    ∀ (xs : List Line) (ys : List (List Line)) (g : List Line),
    g ∈ List.zipWith List.cons xs ys → ∃ x y, x ∈ xs ∧ y ∈ ys ∧ g = x :: y := by
  intro xs
  induction xs with
  | nil => intro ys g hg; simp at hg
  | cons x xs ih =>
    intro ys g hg
    cases ys with
    | nil => simp at hg
    | cons y ys =>
      rcases (by simpa using hg : g = x :: y ∨ g ∈ List.zipWith List.cons xs ys) with h | h
      · exact ⟨x, y, by simp, by simp, h⟩
      · obtain ⟨a, b, ha, hb, rfl⟩ := ih ys g h
        exact ⟨a, b, by simp [ha], by simp [hb], rfl⟩

theorem splitRestSpec_files (pads : Nat → Bytes) (hp : ∀ n, (pads n).length = 32) (k : Nat) :
    ∀ (lines : List Line) (ctr : Nat), ∀ file ∈ splitRestSpec pads k lines ctr,
    file.length = lines.length ∧ file.all isValid32 = true := by
  intro lines
  induction lines with
  | nil =>
    intro ctr file hf
    have : file = [] := List.eq_of_mem_replicate (by simpa [splitRestSpec] using hf)
    simp [this]
  | cons l ls ih =>
    intro ctr file hf
    obtain ⟨x, y, hx, hy, rfl⟩ := mem_zipWith_cons _ _ file (by simpa [splitRestSpec] using hf)
    obtain ⟨p, hpmem, rfl⟩ := List.mem_map.mp hx
    have hy2 := ih (ctr + k) y hy
    have hp32 : p.length = 32 := padsFrom_mem_length32 pads hp k ctr p hpmem
    refine ⟨by simp [hy2.1], ?_⟩
    simp [List.all_cons, isValid32, hp32, hy2.2]

/-! ## The split/recombine row identity -/

theorem headLine_cons (l : Line) (t : List Line) : headLine (l :: t) = l := rfl

theorem entOf_mnem (e : Bytes) : entOf (Line.mnem e) = e := rfl

theorem foldl_zipWith_cons_pads :
    ∀ (P : List Bytes) (R : List (List Line)) (acc : Bytes), P.length = R.length →
    List.foldl (fun a f => xor32 a (entOf (headLine f))) acc
      (List.zipWith List.cons (P.map Line.mnem) R) = List.foldl xor32 acc P := by
  intro P
  induction P with
  | nil => intro R acc _; simp
  | cons p P ih =>
    intro R acc hlen
    cases R with
    | nil => simp at hlen
    | cons r R =>
      simp only [List.map_cons, List.zipWith_cons_cons, List.foldl_cons, headLine_cons,
        entOf_mnem]
      exact ih R (xor32 acc p) (by simpa using hlen)

/-- Row `i` of the `k + 1` files produced by `split` XORs back to the
decoded secret of source line `i`: `rowXors` applied to the split output
returns exactly the source lines. -/
theorem rowXors_split (pads : Nat → Bytes) (hp : ∀ n, (pads n).length = 32) (k : Nat) :
    ∀ (lines : List Line) (ctr : Nat), lines.all isValid32 = true →
    rowXors lines.length
      (splitFirstSpec pads k lines ctr :: splitRestSpec pads k lines ctr) = lines := by
  intro lines
  induction lines with
  | nil => intro ctr _; rfl
  | cons l ls ih =>
    intro ctr hv
    simp only [List.all_cons, Bool.and_eq_true] at hv
    obtain ⟨e, rfl, he⟩ := (isValid32_iff l).mp hv.1
    have hPlen : (padsFrom pads ctr k).length = k := padsFrom_length pads k ctr
    have hP32 : ∀ p ∈ padsFrom pads ctr k, p.length = 32 :=
      padsFrom_mem_length32 pads hp k ctr
    have hacc : (List.foldl xor32 e (padsFrom pads ctr k)).length = 32 :=
      length_foldl_xor32 _ e he hP32
    have hhead : roundAcc
        (splitFirstSpec pads k (Line.mnem e :: ls) ctr ::
          splitRestSpec pads k (Line.mnem e :: ls) ctr) zeros32 = e := by
      simp only [splitFirstSpec, splitRestSpec, roundAcc, List.foldl_cons, headLine_cons,
        entOf_mnem]
      rw [xor32_zeros_left _ hacc,
        foldl_zipWith_cons_pads (padsFrom pads ctr k) _ _
          (by rw [hPlen, splitRestSpec_length pads k ls (ctr + k)])]
      exact foldl_xor32_twice (padsFrom pads ctr k) e he hP32
    have htail :
        (splitFirstSpec pads k (Line.mnem e :: ls) ctr ::
            splitRestSpec pads k (Line.mnem e :: ls) ctr).map List.tail =
          splitFirstSpec pads k ls (ctr + k) :: splitRestSpec pads k ls (ctr + k) := by
      simp only [splitFirstSpec, splitRestSpec, List.map_cons, List.tail_cons,
        List.cons.injEq, true_and]
      have : ∀ (xs : List Line) (ys : List (List Line)), xs.length = ys.length →
          (List.zipWith List.cons xs ys).map List.tail = ys := by
        intro xs
        induction xs with
        | nil => intro ys hlen; cases ys with
          | nil => rfl
          | cons y ys => simp at hlen
        | cons x xs ihz =>
          intro ys hlen
          cases ys with
          | nil => simp at hlen
          | cons y ys => simp [ihz ys (by simpa using hlen)]
      exact this _ _ (by
        simp [hPlen, splitRestSpec_length pads k ls (ctr + k)])
    show Line.mnem _ :: rowXors ls.length _ = _
    rw [htail, hhead, ih (ctr + k) hv.2]

/-! ## Destructors for mapped results -/

theorem except_map_ok {e a b : Type} (g : a → b) (x : Except e a) (v : b)
    (h : x.map g = .ok v) : ∃ w, x = .ok w ∧ v = g w := by
  cases x with
  | error err => simp [Except.map] at h
  | ok w =>
    refine ⟨w, rfl, ?_⟩
    simp only [Except.map, Except.ok.injEq] at h
    exact h.symm

theorem except_map_error {e a b : Type} (g : a → b) (x : Except e a) (err : e)
    (h : x.map g = .error err) : x = .error err := by
  cases x with
  | error err2 =>
    simp only [Except.map, Except.error.injEq] at h
    rw [h]
  | ok w => simp [Except.map] at h

/-! ## Structural-error analysis of the combiner round -/

theorem xorRound_fin_mono (i : Nat) :
    ∀ (fs : List (List Line)) (f : Nat) (acc : Bytes) (rs : List (List Line))
      (fin2 : Bool) (acc2 : Bytes),
    xorRound i fs f true acc = .ok (rs, fin2, acc2) → fin2 = true := by
  intro fs
  induction fs with
  | nil =>
    intro f acc rs fin2 acc2 h
    simp only [xorRound, Except.ok.injEq, Prod.mk.injEq] at h
    exact h.2.1.symm
  | cons file rest ih =>
    intro f acc rs fin2 acc2 h
    cases file with
    | nil =>
      by_cases hf : f = 0
      · rw [xorRound, if_pos hf] at h
        obtain ⟨w, hw, hv⟩ := except_map_ok _ _ _ h
        obtain ⟨rs2, fin3, acc3⟩ := w
        simp only [Prod.mk.injEq] at hv
        exact hv.2.1.trans (ih f acc rs2 fin3 acc3 hw)
      · rw [xorRound, if_neg hf, if_neg (by decide : ¬(true = false))] at h
        obtain ⟨w, hw, hv⟩ := except_map_ok _ _ _ h
        obtain ⟨rs2, fin3, acc3⟩ := w
        simp only [Prod.mk.injEq] at hv
        exact hv.2.1.trans (ih f acc rs2 fin3 acc3 hw)
    | cons l ls =>
      rw [xorRound, if_pos rfl] at h
      exact Except.noConfusion h

theorem xorRound_fin_no_sudden (i : Nat) :
    ∀ (fs : List (List Line)) (f : Nat) (acc : Bytes) (n : Nat),
    xorRound i fs f true acc ≠ .error (.suddenlyEnded n) := by
  intro fs
  induction fs with
  | nil => intro f acc n h; exact Except.noConfusion h
  | cons file rest ih =>
    intro f acc n h
    cases file with
    | nil =>
      by_cases hf : f = 0
      · rw [xorRound, if_pos hf] at h
        exact ih f acc n (except_map_error _ _ _ h)
      · rw [xorRound, if_neg hf, if_neg (by decide : ¬(true = false))] at h
        exact ih f acc n (except_map_error _ _ _ h)
    | cons l ls =>
      rw [xorRound, if_pos rfl] at h
      simp at h

theorem xorRound_fin_cont (i : Nat) :
    ∀ (fs : List (List Line)) (acc : Bytes) (n : Nat),
    xorRound i fs 0 true acc = .error (.continuesLonger n) → n = 0 := by
  intro fs
  induction fs with
  | nil => intro acc n h; exact Except.noConfusion h
  | cons file rest ih =>
    intro acc n h
    cases file with
    | nil =>
      rw [xorRound, if_pos rfl] at h
      exact ih acc n (except_map_error _ _ _ h)
    | cons l ls =>
      rw [xorRound, if_pos rfl] at h
      simp only [Except.error.injEq, RunError.continuesLonger.injEq] at h
      exact h.symm

theorem xorRound_cont0 (i : Nat) :
    ∀ (fs : List (List Line)) (f : Nat) (acc : Bytes) (n : Nat),
    xorRound i fs f false acc = .error (.continuesLonger n) → n = 0 := by
  intro fs
  induction fs with
  | nil => intro f acc n h; exact Except.noConfusion h
  | cons file rest ih =>
    intro f acc n h
    cases file with
    | nil =>
      by_cases hf : f = 0
      · rw [xorRound, if_pos hf] at h
        exact xorRound_fin_cont i rest acc n (hf ▸ except_map_error _ _ _ h)
      · rw [xorRound, if_neg hf, if_pos rfl] at h
        simp at h
    | cons l ls =>
      rw [xorRound, if_neg (by decide : ¬(false = true))] at h
      rcases hparse : parse_in_normalized l with msg | m <;> rw [hparse] at h <;>
        dsimp only at h
      · simp at h
      · by_cases hm : m.length = 32
        · rw [if_pos hm] at h
          exact ih (f + 1) (xor32 acc m) n (except_map_error _ _ _ h)
        · rw [if_neg hm] at h
          simp at h

theorem xorRound_sudden_char (i : Nat) :
    ∀ (fs : List (List Line)) (f : Nat) (acc : Bytes) (n : Nat),
    xorRound i fs f false acc = .error (.suddenlyEnded n) →
    f ≤ n ∧ n - f < fs.length ∧ fs.getD (n - f) [] = [] ∧
      ∀ j, j < n - f → fs.getD j [] ≠ [] := by
  intro fs
  induction fs with
  | nil => intro f acc n h; exact Except.noConfusion h
  | cons file rest ih =>
    intro f acc n h
    cases file with
    | nil =>
      by_cases hf : f = 0
      · rw [xorRound, if_pos hf] at h
        exact absurd (except_map_error _ _ _ h) (xorRound_fin_no_sudden i rest f acc n)
      · rw [xorRound, if_neg hf, if_pos rfl] at h
        simp only [Except.error.injEq, RunError.suddenlyEnded.injEq] at h
        subst h
        refine ⟨Nat.le_refl f, ?_, ?_, ?_⟩
        · simp [Nat.sub_self]
        · simp [Nat.sub_self]
        · intro j hj; omega
    | cons l ls =>
      rw [xorRound, if_neg (by decide : ¬(false = true))] at h
      rcases hparse : parse_in_normalized l with msg | m <;> rw [hparse] at h <;>
        dsimp only at h
      · simp at h
      · by_cases hm : m.length = 32
        · rw [if_pos hm] at h
          obtain ⟨hle, hlt, hempty, hprev⟩ :=
            ih (f + 1) (xor32 acc m) n (except_map_error _ _ _ h)
          have hfn : f < n := Nat.lt_of_succ_le hle
          have hsub : n - f = (n - (f + 1)) + 1 := by omega
          refine ⟨Nat.le_of_lt hfn, ?_, ?_, ?_⟩
          · simp only [List.length_cons]; omega
          · rw [hsub]; simpa using hempty
          · intro j hj
            cases j with
            | zero => simp
            | succ j2 =>
              rw [List.getD_cons_succ]
              exact hprev j2 (by omega)
        · rw [if_neg hm] at h
          simp at h

theorem xorRound_sudden_pos (i : Nat) (fs : List (List Line)) (acc : Bytes) (n : Nat)
    (h : xorRound i fs 0 false acc = .error (.suddenlyEnded n)) : 1 ≤ n := by
  cases fs with
  | nil => exact Except.noConfusion h
  | cons file rest =>
    cases file with
    | nil =>
      rw [xorRound, if_pos rfl] at h
      exact absurd (except_map_error _ _ _ h) (xorRound_fin_no_sudden i rest 0 acc n)
    | cons l ls =>
      rw [xorRound, if_neg (by decide : ¬(false = true))] at h
      rcases hparse : parse_in_normalized l with msg | m <;> rw [hparse] at h <;>
        dsimp only at h
      · simp at h
      · by_cases hm : m.length = 32
        · rw [if_pos hm] at h
          have := (xorRound_sudden_char i rest 1 (xor32 acc m) n
            (except_map_error _ _ _ h)).1
          omega
        · rw [if_neg hm] at h
          simp at h

theorem xorRound_progress (i : Nat) :
    ∀ (fs : List (List Line)) (f : Nat) (acc : Bytes) (rs : List (List Line)) (acc2 : Bytes),
    xorRound i fs f false acc = .ok (rs, false, acc2) →
    rs.length = fs.length ∧
      ∀ j, j < fs.length → fs.getD j [] ≠ [] ∧ rs.getD j [] = (fs.getD j []).tail := by
  intro fs
  induction fs with
  | nil =>
    intro f acc rs acc2 h
    simp only [xorRound, Except.ok.injEq, Prod.mk.injEq] at h
    refine ⟨by rw [← h.1], ?_⟩
    intro j hj; simp at hj
  | cons file rest ih =>
    intro f acc rs acc2 h
    cases file with
    | nil =>
      by_cases hf : f = 0
      · rw [xorRound, if_pos hf] at h
        obtain ⟨w, hw, hv⟩ := except_map_ok _ _ _ h
        obtain ⟨rs2, fin3, acc3⟩ := w
        simp only [Prod.mk.injEq] at hv
        have : fin3 = true := xorRound_fin_mono i rest f acc rs2 fin3 acc3 hw
        rw [this] at hv
        exact absurd hv.2.1 (by decide)
      · rw [xorRound, if_neg hf, if_pos rfl] at h
        exact Except.noConfusion h
    | cons l ls =>
      rw [xorRound, if_neg (by decide : ¬(false = true))] at h
      rcases hparse : parse_in_normalized l with msg | m <;> rw [hparse] at h <;>
        dsimp only at h
      · exact Except.noConfusion h
      · by_cases hm : m.length = 32
        · rw [if_pos hm] at h
          obtain ⟨w, hw, hv⟩ := except_map_ok _ _ _ h
          obtain ⟨rs2, fin3, acc3⟩ := w
          simp only [Prod.mk.injEq] at hv
          have hfin : fin3 = false := hv.2.1.symm
          subst hfin
          obtain ⟨hlen, hall⟩ := ih (f + 1) (xor32 acc m) rs2 acc3 hw
          refine ⟨by simp [hv.1, hlen], ?_⟩
          intro j hj
          cases j with
          | zero => refine ⟨by simp, ?_⟩; rw [hv.1]; simp
          | succ j2 =>
            rw [List.getD_cons_succ, hv.1, List.getD_cons_succ]
            exact hall j2 (by simpa using hj)
        · rw [if_neg hm] at h
          exact Except.noConfusion h

theorem xorRound_no_unwrap (i : Nat) :
    ∀ (fs : List (List Line)) (f : Nat) (fin : Bool) (acc : Bytes),
    xorRound i fs f fin acc ≠ .error .unwrapPanic := by
  intro fs
  induction fs with
  | nil => intro f fin acc h; exact Except.noConfusion h
  | cons file rest ih =>
    intro f fin acc h
    cases file with
    | nil =>
      by_cases hf : f = 0
      · rw [xorRound, if_pos hf] at h
        exact ih f true acc (except_map_error _ _ _ h)
      · by_cases hfin : fin = false
        · rw [xorRound, if_neg hf, if_pos hfin] at h
          simp at h
        · rw [xorRound, if_neg hf, if_neg hfin] at h
          exact ih f fin acc (except_map_error _ _ _ h)
    | cons l ls =>
      by_cases hfin : fin = true
      · rw [xorRound, if_pos hfin] at h
        simp at h
      · rw [xorRound, if_neg hfin] at h
        rcases hparse : parse_in_normalized l with msg | m <;> rw [hparse] at h <;>
        dsimp only at h
        · simp at h
        · by_cases hm : m.length = 32
          · rw [if_pos hm] at h
            exact ih (f + 1) fin (xor32 acc m) (except_map_error _ _ _ h)
          · rw [if_neg hm] at h
            simp at h

theorem xorRound_acc_length (i : Nat) :
    ∀ (fs : List (List Line)) (f : Nat) (fin : Bool) (acc : Bytes)
      (rs : List (List Line)) (fin2 : Bool) (acc2 : Bytes),
    xorRound i fs f fin acc = .ok (rs, fin2, acc2) → acc.length = 32 → acc2.length = 32 := by
  intro fs
  induction fs with
  | nil =>
    intro f fin acc rs fin2 acc2 h ha
    simp only [xorRound, Except.ok.injEq, Prod.mk.injEq] at h
    rw [← h.2.2]; exact ha
  | cons file rest ih =>
    intro f fin acc rs fin2 acc2 h ha
    cases file with
    | nil =>
      by_cases hf : f = 0
      · rw [xorRound, if_pos hf] at h
        obtain ⟨w, hw, hv⟩ := except_map_ok _ _ _ h
        obtain ⟨rs2, fin3, acc3⟩ := w
        simp only [Prod.mk.injEq] at hv
        rw [hv.2.2]
        exact ih f true acc rs2 fin3 acc3 hw ha
      · by_cases hfin : fin = false
        · rw [xorRound, if_neg hf, if_pos hfin] at h
          exact Except.noConfusion h
        · rw [xorRound, if_neg hf, if_neg hfin] at h
          obtain ⟨w, hw, hv⟩ := except_map_ok _ _ _ h
          obtain ⟨rs2, fin3, acc3⟩ := w
          simp only [Prod.mk.injEq] at hv
          rw [hv.2.2]
          exact ih f fin acc rs2 fin3 acc3 hw ha
    | cons l ls =>
      by_cases hfin : fin = true
      · rw [xorRound, if_pos hfin] at h
        exact Except.noConfusion h
      · rw [xorRound, if_neg hfin] at h
        rcases hparse : parse_in_normalized l with msg | m <;> rw [hparse] at h <;>
        dsimp only at h
        · exact Except.noConfusion h
        · by_cases hm : m.length = 32
          · rw [if_pos hm] at h
            obtain ⟨w, hw, hv⟩ := except_map_ok _ _ _ h
            obtain ⟨rs2, fin3, acc3⟩ := w
            simp only [Prod.mk.injEq] at hv
            rw [hv.2.2]
            exact ih (f + 1) fin (xor32 acc m) rs2 fin3 acc3 hw
              (by simp [length_xor32, ha, hm])
          · rw [if_neg hm] at h
            exact Except.noConfusion h

/-! ## Whole-run analysis of the combiner loop -/

theorem option_map_some {a b : Type} (g : a → b) (x : Option a) (v : b)
    (h : x.map g = some v) : ∃ w, x = some w ∧ v = g w := by
  cases x with
  | none => simp at h
  | some w => exact ⟨w, rfl, by simpa using h.symm⟩

theorem length_of_ne_nil (l : List Line) (h : l ≠ []) : l.length = l.tail.length + 1 := by
  cases l with
  | nil => exact absurd rfl h
  | cons x xs => rfl

theorem xorGo_cont0 :
    ∀ (fuel i : Nat) (fs : List (List Line)) (n : Nat),
    xorGo fuel i fs = some (.error (.continuesLonger n)) → n = 0 := by
  intro fuel
  induction fuel with
  | zero => intro i fs n h; simp [xorGo] at h
  | succ fuel ih =>
    intro i fs n h
    rw [xorGo] at h
    rcases hr : xorRound i fs 0 false zeros32 with e | ⟨rs, fin, acc⟩ <;>
      rw [hr] at h <;> dsimp only at h
    · simp only [Option.some.injEq, Except.error.injEq] at h
      subst h
      exact xorRound_cont0 i fs 0 zeros32 n hr
    · rcases hfe : from_entropy acc with _ | out <;> rw [hfe] at h <;> dsimp only at h
      · simp at h
      · cases fin with
        | true => rw [if_pos rfl] at h; simp at h
        | false =>
          rw [if_neg (by decide : ¬(false = true))] at h
          obtain ⟨w2, hw2, hv2⟩ := option_map_some _ _ _ h
          have hw3 := except_map_error _ _ _ hv2.symm
          exact ih (i + 1) rs n (by rw [hw2, hw3])

theorem xorGo_no_unwrap :
    ∀ (fuel i : Nat) (fs : List (List Line)),
    xorGo fuel i fs ≠ some (.error .unwrapPanic) := by
  intro fuel
  induction fuel with
  | zero => intro i fs h; simp [xorGo] at h
  | succ fuel ih =>
    intro i fs h
    rw [xorGo] at h
    rcases hr : xorRound i fs 0 false zeros32 with e | ⟨rs, fin, acc⟩ <;>
      rw [hr] at h <;> dsimp only at h
    · simp only [Option.some.injEq, Except.error.injEq] at h
      exact xorRound_no_unwrap i fs 0 false zeros32 (h ▸ hr)
    · have hacc : acc.length = 32 :=
        xorRound_acc_length i fs 0 false zeros32 rs fin acc hr zeros32_length
      rcases hfe : from_entropy acc with _ | out <;> rw [hfe] at h <;> dsimp only at h
      · rw [from_entropy_of_length32 acc hacc] at hfe
        exact Option.noConfusion hfe
      · cases fin with
        | true => rw [if_pos rfl] at h; simp at h
        | false =>
          rw [if_neg (by decide : ¬(false = true))] at h
          obtain ⟨w2, hw2, hv2⟩ := option_map_some _ _ _ h
          have hw3 := except_map_error _ _ _ hv2.symm
          exact ih (i + 1) rs (by rw [hw2, hw3])

theorem xorGo_sudden_char :
    ∀ (fuel i : Nat) (fs : List (List Line)) (n : Nat),
    xorGo fuel i fs = some (.error (.suddenlyEnded n)) →
    1 ≤ n ∧ n < fs.length ∧
      ∀ j, j < n → (fs.getD n []).length < (fs.getD j []).length := by
  intro fuel
  induction fuel with
  | zero => intro i fs n h; simp [xorGo] at h
  | succ fuel ih =>
    intro i fs n h
    rw [xorGo] at h
    rcases hr : xorRound i fs 0 false zeros32 with e | ⟨rs, fin, acc⟩ <;>
      rw [hr] at h <;> dsimp only at h
    · simp only [Option.some.injEq, Except.error.injEq] at h
      subst h
      have hpos := xorRound_sudden_pos i fs zeros32 n hr
      obtain ⟨_, hlt, hempty, hprev⟩ := xorRound_sudden_char i fs 0 zeros32 n hr
      rw [Nat.sub_zero] at hlt hempty
      refine ⟨hpos, hlt, ?_⟩
      intro j hj
      have hj2 : fs.getD j [] ≠ [] := hprev j (by omega)
      rw [hempty]
      simpa using List.length_pos.mpr hj2
    · rcases hfe : from_entropy acc with _ | out <;> rw [hfe] at h <;> dsimp only at h
      · simp at h
      · cases fin with
        | true => rw [if_pos rfl] at h; simp at h
        | false =>
          rw [if_neg (by decide : ¬(false = true))] at h
          obtain ⟨w2, hw2, hv2⟩ := option_map_some _ _ _ h
          have hw3 := except_map_error _ _ _ hv2.symm
          obtain ⟨h1, h2, h3⟩ := ih (i + 1) rs n (by rw [hw2, hw3])
          obtain ⟨hlen, hall⟩ := xorRound_progress i fs 0 zeros32 rs acc hr
          refine ⟨h1, by omega, ?_⟩
          intro j hj
          have hjfs : j < fs.length := by omega
          have hnfs : n < fs.length := by omega
          obtain ⟨hjne, hjtail⟩ := hall j hjfs
          obtain ⟨hnne, hntail⟩ := hall n hnfs
          have hlj := length_of_ne_nil _ hjne
          have hln := length_of_ne_nil _ hnne
          have := h3 j hj
          rw [hntail, hjtail] at this
          omega

theorem xorGo_two_sudden :
    ∀ (L : Nat) (f1 f2 : List Line) (fuel i : Nat),
    f1.all isValid32 = true → f2.all isValid32 = true →
    f1.length = L + 1 → f2.length = L → L + 1 ≤ fuel →
    xorGo fuel i [f1, f2] = some (.error (.suddenlyEnded 1)) := by
  intro L
  induction L with
  | zero =>
    intro f1 f2 fuel i hv1 hv2 hl1 hl2 hfuel
    obtain ⟨m, rfl⟩ := Nat.exists_eq_add_of_le hfuel
    have hf2 : f2 = [] := List.length_eq_zero.mp hl2
    obtain ⟨e, t, rfl, he⟩ := head_of_valid f1 0 hl1 hv1
    subst hf2
    rw [Nat.add_comm (0 + 1) m]
    have hround : xorRound i [Line.mnem e :: t, []] 0 false zeros32 =
        .error (.suddenlyEnded 1) := by
      simp [xorRound, parse_mnem32 e he, he, Except.map]
    simp [xorGo, hround]
  | succ L ih =>
    intro f1 f2 fuel i hv1 hv2 hl1 hl2 hfuel
    obtain ⟨m, rfl⟩ := Nat.exists_eq_add_of_le hfuel
    obtain ⟨e1, t1, rfl, he1⟩ := head_of_valid f1 (L + 1) hl1 hv1
    obtain ⟨e2, t2, rfl, he2⟩ := head_of_valid f2 L hl2 hv2
    have hgood : ∀ file ∈ [Line.mnem e1 :: t1, Line.mnem e2 :: t2],
        ∃ e t, file = Line.mnem e :: t ∧ e.length = 32 := by
      intro file hf
      rcases (by simpa using hf :
        file = Line.mnem e1 :: t1 ∨ file = Line.mnem e2 :: t2) with rfl | rfl
      · exact ⟨e1, t1, rfl, he1⟩
      · exact ⟨e2, t2, rfl, he2⟩
    have hround := xorRound_data i [Line.mnem e1 :: t1, Line.mnem e2 :: t2] 0 zeros32 hgood
    have hacc : (roundAcc [Line.mnem e1 :: t1, Line.mnem e2 :: t2] zeros32).length = 32 :=
      roundAcc_length _ zeros32 zeros32_length hgood
    simp only [List.all_cons, Bool.and_eq_true] at hv1 hv2
    have hrec := ih t1 t2 (L + 1 + m) (i + 1) hv1.2 hv2.2
      (by simpa using hl1) (by simpa using hl2) (by omega)
    rw [show L + 1 + 1 + m = (L + 1 + m) + 1 by omega]
    simp [xorGo, hround, from_entropy_of_length32 _ hacc, hrec, Except.map, Option.map]

theorem xorGo_two_cont :
    ∀ (L : Nat) (f1 f2 : List Line) (fuel i : Nat),
    f1.all isValid32 = true → f2.all isValid32 = true →
    f1.length = L → f2.length = L + 1 → L + 1 ≤ fuel →
    xorGo fuel i [f1, f2] = some (.error (.continuesLonger 0)) := by
  intro L
  induction L with
  | zero =>
    intro f1 f2 fuel i hv1 hv2 hl1 hl2 hfuel
    obtain ⟨m, rfl⟩ := Nat.exists_eq_add_of_le hfuel
    have hf1 : f1 = [] := List.length_eq_zero.mp hl1
    obtain ⟨e, t, rfl, he⟩ := head_of_valid f2 0 hl2 hv2
    subst hf1
    rw [Nat.add_comm (0 + 1) m]
    have hround : xorRound i [[], Line.mnem e :: t] 0 false zeros32 =
        .error (.continuesLonger 0) := by
      simp [xorRound, Except.map]
    simp [xorGo, hround]
  | succ L ih =>
    intro f1 f2 fuel i hv1 hv2 hl1 hl2 hfuel
    obtain ⟨m, rfl⟩ := Nat.exists_eq_add_of_le hfuel
    obtain ⟨e1, t1, rfl, he1⟩ := head_of_valid f1 L hl1 hv1
    obtain ⟨e2, t2, rfl, he2⟩ := head_of_valid f2 (L + 1) hl2 hv2
    have hgood : ∀ file ∈ [Line.mnem e1 :: t1, Line.mnem e2 :: t2],
        ∃ e t, file = Line.mnem e :: t ∧ e.length = 32 := by
      intro file hf
      rcases (by simpa using hf :
        file = Line.mnem e1 :: t1 ∨ file = Line.mnem e2 :: t2) with rfl | rfl
      · exact ⟨e1, t1, rfl, he1⟩
      · exact ⟨e2, t2, rfl, he2⟩
    have hround := xorRound_data i [Line.mnem e1 :: t1, Line.mnem e2 :: t2] 0 zeros32 hgood
    have hacc : (roundAcc [Line.mnem e1 :: t1, Line.mnem e2 :: t2] zeros32).length = 32 :=
      roundAcc_length _ zeros32 zeros32_length hgood
    simp only [List.all_cons, Bool.and_eq_true] at hv1 hv2
    have hrec := ih t1 t2 (L + 1 + m) (i + 1) hv1.2 hv2.2
      (by simpa using hl1) (by simpa using hl2) (by omega)
    rw [show L + 1 + 1 + m = (L + 1 + m) + 1 by omega]
    simp [xorGo, hround, from_entropy_of_length32 _ hacc, hrec, Except.map, Option.map]

/-! ## Instantiating the run lemmas at the fuel used by xor_inner -/

theorem sum_map_length_const :
    ∀ (fs : List (List Line)) (L : Nat), (∀ f ∈ fs, f.length = L) →
    (fs.map List.length).sum = fs.length * L := by
  intro fs
  induction fs with
  | nil => intro L _; simp
  | cons g rest ih =>
    intro L h
    have hg : g.length = L := h g (by simp)
    have hrest := ih L fun f hf => h f (by simp [hf])
    simp only [List.map_cons, List.sum_cons, hg, hrest, List.length_cons]
    ring

theorem xor_inner_eq_of_valid (fs : List (List Line)) (L : Nat) (hne : fs ≠ [])
    (h : ∀ file ∈ fs, file.length = L ∧ file.all isValid32 = true) :
    xor_inner fs = some (.ok (rowXors L fs ++ [Line.mnem zeros32])) := by
  have hsum : (fs.map List.length).sum = fs.length * L :=
    sum_map_length_const fs L fun f hf => (h f hf).1
  have hpos : 0 < fs.length := List.length_pos.mpr hne
  refine xorGo_ok_of_valid L fs _ 0 hne h ?_
  rw [hsum]
  have : L ≤ fs.length * L := Nat.le_mul_of_pos_left L hpos
  omega

theorem xor_inner_all_empty (K : Nat) (hK : 1 ≤ K) :
    xor_inner (List.replicate K []) = some (.ok [Line.mnem zeros32]) := by
  have hne : List.replicate K ([] : List Line) ≠ [] := by
    simp only [ne_eq, List.replicate_eq_nil_iff]
    omega
  have h := xor_inner_eq_of_valid (List.replicate K []) 0 hne (by
    intro file hf
    have : file = [] := List.eq_of_mem_replicate hf
    simp [this])
  simpa [rowXors] using h

/-! ## No unwrap panic in generator and splitter -/

theorem genGo_eq (rnd : Nat → Bytes) (hr : ∀ n, (rnd n).length = 32) :
    ∀ (n ctr : Nat), genGo rnd ctr n = .ok ((padsFrom rnd ctr n).map Line.mnem) := by
  intro n
  induction n with
  | zero => intro ctr; simp [genGo, padsFrom]
  | succ n ih =>
    intro ctr
    simp [genGo, from_entropy_of_length32 (rnd ctr) (hr ctr), ih (ctr + 1), padsFrom,
      Except.map]

theorem splitGo_no_unwrap (pads : Nat → Bytes) (hp : ∀ n, (pads n).length = 32) (k : Nat) :
    ∀ (lines : List Line) (i ctr : Nat), splitGo pads k lines i ctr ≠ .error .unwrapPanic := by
  intro lines
  induction lines with
  | nil => intro i ctr h; simp [splitGo] at h
  | cons l ls ih =>
    intro i ctr h
    rw [splitGo] at h
    rcases hparse : parse_in_normalized l with msg | src <;> rw [hparse] at h <;>
      dsimp only at h
    · simp at h
    · by_cases hlen : src.length = 32
      · rw [if_pos hlen, splitPads_eq pads hp k ctr src] at h
        dsimp only at h
        have hacc : (List.foldl xor32 src (padsFrom pads ctr k)).length = 32 :=
          length_foldl_xor32 _ src hlen (padsFrom_mem_length32 pads hp k ctr)
        rw [from_entropy_of_length32 _ hacc] at h
        dsimp only at h
        exact ih (i + 1) (ctr + k) (except_map_error _ _ _ h)
      · rw [if_neg hlen] at h
        simp at h

/-! ## A valid 12-word line dies on the length assertion -/

theorem xor_inner_assert_short (e : Bytes) (he : e.length = 16) (t : List Line)
    (fs : List (List Line)) :
    xor_inner ((Line.mnem e :: t) :: fs) = some (.error (.assertLen 16)) := by
  have hparse : parse_in_normalized (Line.mnem e) = .ok e := by
    simp [parse_in_normalized, he, validEntropyLengths]
  have hround : xorRound 0 ((Line.mnem e :: t) :: fs) 0 false zeros32 =
      .error (.assertLen 16) := by
    rw [xorRound, if_neg (by decide : ¬(false = true)), hparse]
    dsimp only
    rw [if_neg (by rw [he]; decide), he]
  simp [xor_inner, xorGo, hround]

theorem split_assert_short (pads : Nat → Bytes) (e : Bytes) (he : e.length = 16)
    (ls : List Line) (k : Nat) :
    split pads (Line.mnem e :: ls) k = .error (.assertLen 16) := by
  have hparse : parse_in_normalized (Line.mnem e) = .ok e := by
    simp [parse_in_normalized, he, validEntropyLengths]
  rw [split, splitGo, hparse]
  dsimp only
  rw [if_neg (by rw [he]; decide), he]

/-! ## Permutation invariance of the per-row XOR -/

theorem roundAcc_perm (fs fs2 : List (List Line)) (hperm : fs.Perm fs2) (acc : Bytes) :
    roundAcc fs acc = roundAcc fs2 acc := by
  refine hperm.foldl_eq' ?_ acc
  intro x _ y _ z
  rw [xor32_assoc, xor32_assoc, xor32_comm (entOf (headLine x)) (entOf (headLine y))]

theorem rowXors_perm :
    ∀ (L : Nat) (fs fs2 : List (List Line)), fs.Perm fs2 → rowXors L fs = rowXors L fs2 := by
  intro L
  induction L with
  | zero => intro fs fs2 _; rfl
  | succ L ih =>
    intro fs fs2 hperm
    simp only [rowXors]
    rw [roundAcc_perm fs fs2 hperm zeros32, ih _ _ (hperm.map List.tail)]

/-! ## Rollback behaviour of create_files -/

/-- The filesystem after this invocation has exclusively created every path
in `ps` (contents of a fresh file are `some 0`). -/
def addAll (fs : FS) (ps : List Nat) : FS :=
  ps.foldl (fun f p => fsUpdate f p (some 0)) fs

theorem addAll_pt :
    ∀ (ps : List Nat) (fs : FS) (q : Nat),
    addAll fs ps q = if q ∈ ps then some 0 else fs q := by
  intro ps
  induction ps with
  | nil => intro fs q; simp [addAll]
  | cons p ps ih =>
    intro fs q
    show addAll (fsUpdate fs p (some 0)) ps q = _
    rw [ih]
    by_cases hq : q ∈ ps
    · simp [hq]
    · by_cases hqp : q = p <;> simp [fsUpdate, hq, hqp]

theorem removeList_pt :
    ∀ (ps : List Nat) (fs : FS) (q : Nat),
    removeList fs ps q = if q ∈ ps then none else fs q := by
  intro ps
  induction ps with
  | nil => intro fs q; simp [removeList]
  | cons p ps ih =>
    intro fs q
    show removeList (fsUpdate fs p none) ps q = _
    rw [ih]
    by_cases hq : q ∈ ps
    · simp [hq]
    · by_cases hqp : q = p <;> simp [fsUpdate, hq, hqp]

theorem create_files_go_fail :
    ∀ (rest : List Nat) (fs0 : FS) (created : List Nat) (fs2 : FS),
    (∀ p ∈ created, fs0 p = none) →
    create_files_go (addAll fs0 created) created rest = (fs2, false) → fs2 = fs0 := by
  intro rest
  induction rest with
  | nil =>
    intro fs0 created fs2 _ h
    simp only [create_files_go, Prod.mk.injEq] at h
    exact absurd h.2 (by decide)
  | cons p rest ih =>
    intro fs0 created fs2 hc h
    rw [create_files_go] at h
    by_cases hex : ((addAll fs0 created) p).isSome
    · rw [if_pos hex] at h
      simp only [Prod.mk.injEq] at h
      funext q
      rw [← h.1, removeList_pt, addAll_pt]
      by_cases hq : q ∈ created
      · simp [hq, (hc q hq).symm]
      · simp [hq]
    · rw [if_neg hex] at h
      have hp0 : p ∉ created ∧ fs0 p = none := by
        have hpt := addAll_pt created fs0 p
        by_cases hpc : p ∈ created
        · rw [if_pos hpc] at hpt
          rw [hpt] at hex
          simp at hex
        · rw [if_neg hpc] at hpt
          rw [hpt] at hex
          exact ⟨hpc, Option.not_isSome_iff_eq_none.mp hex⟩
      have heq : fsUpdate (addAll fs0 created) p (some 0) = addAll fs0 (created ++ [p]) := by
        funext q
        rw [addAll_pt]
        by_cases hqp : q = p
        · simp [fsUpdate, hqp]
        · by_cases hq : q ∈ created <;>
            simp [fsUpdate, addAll_pt, hq, hqp]
      rw [heq] at h
      refine ih fs0 (created ++ [p]) fs2 ?_ h
      intro q hq
      rcases List.mem_append.mp hq with hq2 | hq2
      · exact hc q hq2
      · rw [List.mem_singleton.mp hq2]
        exact hp0.2

theorem create_files_fail (fs : FS) (paths : List Nat) (fs2 : FS)
    (h : create_files fs paths = (fs2, false)) : fs2 = fs :=
  create_files_go_fail paths fs [] fs2 (fun p hp => absurd hp (List.not_mem_nil p)) h

theorem create_files_go_collision :
    ∀ (paths : List Nat) (fsc : FS) (created : List Nat) (p : Nat),
    p ∈ paths → fsc p ≠ none → (create_files_go fsc created paths).2 = false := by
  intro paths
  induction paths with
  | nil => intro fsc created p hmem _; exact absurd hmem (List.not_mem_nil p)
  | cons q rest ih =>
    intro fsc created p hmem hne
    rw [create_files_go]
    by_cases hex : (fsc q).isSome
    · rw [if_pos hex]
    · rw [if_neg hex]
      rcases List.mem_cons.mp hmem with rfl | hrest
      · exact absurd (Option.not_isSome_iff_eq_none.mp hex) hne
      · refine ih (fsUpdate fsc q (some 0)) (created ++ [q]) p hrest ?_
        by_cases hpq : p = q
        · simp [fsUpdate, hpq]
        · simpa [fsUpdate, hpq] using hne

/-! ## The boolean take/all form of the early-end characterisation -/

theorem all_take_lt (fs : List (List Line)) (n : Nat)
    (h : ∀ j, j < n → (fs.getD n []).length < (fs.getD j []).length) :
    ((fs.take n).all fun g => decide ((fs.getD n []).length < g.length)) = true := by
  rw [List.all_eq_true]
  intro g hg
  obtain ⟨j, hj, hgeq⟩ := List.mem_iff_getElem.mp hg
  have hjn : j < n := by
    have := hj
    simp only [List.length_take] at this
    omega
  have hjfs : j < fs.length := by
    have := hj
    simp only [List.length_take] at this
    omega
  have : g = fs.getD j [] := by
    rw [← hgeq, List.getElem_take fs, List.getD_eq_getElem fs [] hjfs]
  rw [this]
  exact decide_eq_true (h j hjn)

theorem rowXors_length : ∀ (L : Nat) (fs : List (List Line)), (rowXors L fs).length = L := by
  intro L
  induction L with
  | zero => intro fs; rfl
  | succ L ih => intro fs; simp [rowXors, ih]

/-! # Claim theorems -/

/-- C1: for every source line `i` decoding to a 32-byte secret, `split`
with `N = k + 1 ≥ 2` destinations writes one line per destination at row
`i`: destinations 2..N receive the freshly drawn pads and destination 1
the secret XORed with all `k` pads, and the XOR of the decoded entropy of
all `N` destination lines at row `i` equals the secret of line `i`
(`rowXors` of the output returns exactly the source lines). -/
theorem split_shares_xor_to_secret (pads : Nat → Bytes) (hp : ∀ n, (pads n).length = 32)
    (lines : List Line) (k : Nat) (hk : 1 ≤ k) (hv : lines.all isValid32 = true) :
    split pads lines k = .ok (splitFirstSpec pads k lines 0, splitRestSpec pads k lines 0) ∧
    rowXors lines.length
      (splitFirstSpec pads k lines 0 :: splitRestSpec pads k lines 0) = lines :=
  ⟨splitGo_eq pads hp k lines 0 0 hv, rowXors_split pads hp k lines 0 hv⟩

theorem split_shares_xor_to_secret_witness :
    split (fun _ => zeros32) [Line.mnem zeros32] 1 =
      .ok (splitFirstSpec (fun _ => zeros32) 1 [Line.mnem zeros32] 0,
        splitRestSpec (fun _ => zeros32) 1 [Line.mnem zeros32] 0) ∧
    rowXors 1 (splitFirstSpec (fun _ => zeros32) 1 [Line.mnem zeros32] 0 ::
      splitRestSpec (fun _ => zeros32) 1 [Line.mnem zeros32] 0) = [Line.mnem zeros32] :=
  split_shares_xor_to_secret (fun _ => zeros32) (fun _ => rfl) [Line.mnem zeros32] 1
    (by decide) (by decide)

/-- C2 counterexample: already for a source of `L = 0` lines and `N = 2`,
splitting produces two empty share files but the combiner run over them
emits one line (the encoding of 32 zero bytes), so its output is not
exactly the lines of the original file. -/
theorem split_xor_roundtrip_counterexample :
    split (fun _ => zeros32) [] 1 = .ok ([], [[]]) ∧
    xor_inner [[], []] = some (.ok [Line.mnem zeros32]) ∧
    (some (Except.ok [Line.mnem zeros32]) : Option (Except RunError (List Line))) ≠
      some (Except.ok []) :=
  ⟨rfl, rfl, by simp⟩

/-- C2 amended: for any source file of `L` valid 24-word lines and any
`N = k + 1 ≥ 2`, splitting and then combining the `N` share files
reproduces the `L` original lines followed by exactly one extra line, the
mnemonic encoding of 32 zero bytes. -/
theorem split_xor_roundtrip_amended (pads : Nat → Bytes) (hp : ∀ n, (pads n).length = 32)
    (lines : List Line) (k : Nat) (hk : 1 ≤ k) (hv : lines.all isValid32 = true) :
    split pads lines k = .ok (splitFirstSpec pads k lines 0, splitRestSpec pads k lines 0) ∧
    xor_inner (splitFirstSpec pads k lines 0 :: splitRestSpec pads k lines 0) =
      some (.ok (lines ++ [Line.mnem zeros32])) := by
  refine ⟨splitGo_eq pads hp k lines 0 0 hv, ?_⟩
  have hfiles : ∀ file ∈ splitFirstSpec pads k lines 0 :: splitRestSpec pads k lines 0,
      file.length = lines.length ∧ file.all isValid32 = true := by
    intro file hf
    rcases List.mem_cons.mp hf with rfl | hrest
    · exact ⟨splitFirstSpec_length pads k lines 0, splitFirstSpec_valid pads hp k lines 0 hv⟩
    · exact splitRestSpec_files pads hp k lines 0 file hrest
  rw [xor_inner_eq_of_valid _ lines.length (by simp) hfiles,
    rowXors_split pads hp k lines 0 hv]

theorem split_xor_roundtrip_amended_witness :
    split (fun _ => zeros32) [Line.mnem zeros32] 1 =
      .ok (splitFirstSpec (fun _ => zeros32) 1 [Line.mnem zeros32] 0,
        splitRestSpec (fun _ => zeros32) 1 [Line.mnem zeros32] 0) ∧
    xor_inner (splitFirstSpec (fun _ => zeros32) 1 [Line.mnem zeros32] 0 ::
        splitRestSpec (fun _ => zeros32) 1 [Line.mnem zeros32] 0) =
      some (.ok ([Line.mnem zeros32] ++ [Line.mnem zeros32])) :=
  split_xor_roundtrip_amended (fun _ => zeros32) (fun _ => rfl) [Line.mnem zeros32] 1
    (by decide) (by decide)

/-- C3 counterexample: with two empty input files, no file ever produces
data, yet the combiner still writes one output line (the encoded all-zero
accumulator) in the terminating round instead of writing nothing. -/
theorem combiner_trailing_line_counterexample :
    xor_inner [[], []] = some (.ok [Line.mnem zeros32]) ∧
    (some (Except.ok [Line.mnem zeros32]) : Option (Except RunError (List Line))) ≠
      some (Except.ok []) :=
  ⟨rfl, by simp⟩

/-- C3 amended: the combiner writes the encoded accumulator at the end of
every round unconditionally, including the terminating round in which every
file yields end-of-stream: over `K ≥ 1` empty files the output is exactly
one line, the encoding of the untouched all-zero accumulator. -/
theorem combiner_always_writes_amended (K : Nat) (hK : 1 ≤ K) :
    xor_inner (List.replicate K []) = some (.ok [Line.mnem zeros32]) :=
  xor_inner_all_empty K hK

theorem combiner_always_writes_amended_witness :
    xor_inner (List.replicate 2 []) = some (.ok [Line.mnem zeros32]) :=
  combiner_always_writes_amended 2 (by decide)

/-- C4: for `K = 2` input files of valid lines whose line counts differ by
one, the combiner aborts with a fatal structural error rather than
finishing: `suddenlyEnded 1` when the first file is longer, and
`continuesLonger 0` when the second file is longer. -/
theorem combiner_length_mismatch_fatal (L : Nat) (f1 f2 g1 g2 : List Line)
    (hv1 : f1.all isValid32 = true) (hv2 : f2.all isValid32 = true)
    (hv3 : g1.all isValid32 = true) (hv4 : g2.all isValid32 = true)
    (hl1 : f1.length = L + 1) (hl2 : f2.length = L)
    (hl3 : g1.length = L) (hl4 : g2.length = L + 1) :
    xor_inner [f1, f2] = some (.error (.suddenlyEnded 1)) ∧
    xor_inner [g1, g2] = some (.error (.continuesLonger 0)) := by
  constructor
  · refine xorGo_two_sudden L f1 f2 _ 0 hv1 hv2 hl1 hl2 ?_
    simp only [List.map_cons, List.map_nil, List.sum_cons, List.sum_nil, hl1, hl2]
    omega
  · refine xorGo_two_cont L g1 g2 _ 0 hv3 hv4 hl3 hl4 ?_
    simp only [List.map_cons, List.map_nil, List.sum_cons, List.sum_nil, hl3, hl4]
    omega

theorem combiner_length_mismatch_fatal_witness :
    xor_inner [[Line.mnem zeros32], []] = some (.error (.suddenlyEnded 1)) ∧
    xor_inner [[], [Line.mnem zeros32]] = some (.error (.continuesLonger 0)) :=
  combiner_length_mismatch_fatal 0 [Line.mnem zeros32] [] [] [Line.mnem zeros32]
    (by decide) (by decide) (by decide) (by decide) rfl rfl rfl rfl

/-- C5 counterexample: in the run `[[], [m]]` the offending file — the one
that continues past file 0's end-of-stream — has index 1, yet the error is
`continuesLonger 0`; and the run `[[m], [m, m]]`, which fails one round
later, produces the literally identical error value, so neither the
offending file index nor the round number is reported for this error. -/
theorem structural_report_counterexample :
    xor_inner [[], [Line.mnem zeros32]] = some (.error (.continuesLonger 0)) ∧
    xor_inner [[Line.mnem zeros32], [Line.mnem zeros32, Line.mnem zeros32]] =
      some (.error (.continuesLonger 0)) :=
  ⟨rfl, rfl⟩

/-- C5 amended: structural errors carry a file index but never the round
number.  When a file ends before its peers (`suddenlyEnded n`), the index
`n` does identify the offending file: `1 ≤ n < K` and every file before
index `n` is strictly longer than file `n`.  When a file continues past an
earlier end-of-stream (`continuesLonger n`), the reported index is always
`0`, regardless of which file continued. -/
theorem structural_report_amended (fs : List (List Line)) (n : Nat) :
    (xor_inner fs = some (.error (.suddenlyEnded n)) →
      1 ≤ n ∧ n < fs.length ∧
        ((fs.take n).all fun g => decide ((fs.getD n []).length < g.length)) = true) ∧
    (xor_inner fs = some (.error (.continuesLonger n)) → n = 0) := by
  constructor
  · intro h
    unfold xor_inner at h
    obtain ⟨h1, h2, h3⟩ := xorGo_sudden_char _ 0 fs n h
    exact ⟨h1, h2, all_take_lt fs n h3⟩
  · intro h
    unfold xor_inner at h
    exact xorGo_cont0 _ 0 fs n h

theorem structural_report_amended_witness :
    (1 ≤ 1 ∧ 1 < [[Line.mnem zeros32], ([] : List Line)].length ∧
      (([[Line.mnem zeros32], ([] : List Line)].take 1).all fun g =>
        decide (([[Line.mnem zeros32], ([] : List Line)].getD 1 []).length < g.length)) =
        true) ∧
    (0 : Nat) = 0 :=
  ⟨(structural_report_amended [[Line.mnem zeros32], []] 1).1 rfl,
    (structural_report_amended [[], [Line.mnem zeros32]] 0).2 rfl⟩

/-- C6 counterexample: a line that is a valid 12-word mnemonic (16 bytes of
entropy) makes the combiner abort via the 32-byte length assertion
(`assertLen 16`), an error that does not name the offending file or line,
unlike the decode errors. -/
theorem short_mnemonic_counterexample :
    xor_inner [[Line.mnem (List.replicate 16 0)], [Line.mnem zeros32]] =
      some (.error (.assertLen 16)) ∧
    reportedWithLine (.assertLen 16) = false :=
  ⟨rfl, rfl⟩

/-- C6 amended: an input line that is a valid mnemonic of a word count
other than 24 (e.g. a valid 12-word mnemonic, whose payload is 16 bytes)
passes mnemonic decoding; the invocation then aborts fatally on the
32-byte length assertion, whose report carries neither the offending file
nor the line number, unlike unknown-word and checksum-mismatch errors. -/
theorem short_mnemonic_assert_amended (pads : Nat → Bytes) (e : Bytes) (he : e.length = 16)
    (t ls : List Line) (fs : List (List Line)) (k : Nat) :
    xor_inner ((Line.mnem e :: t) :: fs) = some (.error (.assertLen 16)) ∧
    split pads (Line.mnem e :: ls) k = .error (.assertLen 16) ∧
    reportedWithLine (.assertLen 16) = false :=
  ⟨xor_inner_assert_short e he t fs, split_assert_short pads e he ls k, rfl⟩

theorem short_mnemonic_assert_amended_witness :
    xor_inner ((Line.mnem (List.replicate 16 0) :: []) :: [[]]) =
      some (.error (.assertLen 16)) ∧
    split (fun _ => zeros32) (Line.mnem (List.replicate 16 0) :: []) 1 =
      .error (.assertLen 16) ∧
    reportedWithLine (.assertLen 16) = false :=
  short_mnemonic_assert_amended (fun _ => zeros32) (List.replicate 16 0) rfl [] [] [[]] 1

/-- C7: when any requested destination path collides with an existing file,
`create_files` reports failure and the resulting filesystem equals the
initial one: every destination created earlier in the invocation has been
deleted, the pre-existing colliding file is untouched, and no new files
remain. -/
theorem create_files_rollback (fs : FS) (paths : List Nat) (p : Nat)
    (hmem : p ∈ paths) (hex : fs p ≠ none) :
    (create_files fs paths).2 = false ∧ (create_files fs paths).1 = fs := by
  have hfail : (create_files fs paths).2 = false :=
    create_files_go_collision paths fs [] p hmem hex
  refine ⟨hfail, ?_⟩
  exact create_files_fail fs paths (create_files fs paths).1 (by rw [← hfail])

theorem create_files_rollback_witness :
    (create_files (fun q => if q = 1 then some 5 else none) [0, 1]).2 = false ∧
    (create_files (fun q => if q = 1 then some 5 else none) [0, 1]).1 =
      (fun q => if q = 1 then some 5 else none) :=
  create_files_rollback (fun q => if q = 1 then some 5 else none) [0, 1] 1
    (by decide) (by decide)

/-- C8: encoding is total on 32-byte buffers, so no
`Mnemonic::from_entropy(..).unwrap()` in the generator, splitter or
combiner can panic: the generator always succeeds, and neither splitter
nor combiner can ever abort with an unwrap panic. -/
theorem encode_total_no_unwrap (b : Bytes) (hb : b.length = 32)
    (rnd pads : Nat → Bytes) (hr : ∀ n, (rnd n).length = 32)
    (hp : ∀ n, (pads n).length = 32)
    (count k : Nat) (lines : List Line) (fs : List (List Line)) :
    from_entropy b = some (Line.mnem b) ∧
    gen_inner rnd count = .ok ((padsFrom rnd 0 count).map Line.mnem) ∧
    split pads lines k ≠ .error .unwrapPanic ∧
    xor_inner fs ≠ some (.error .unwrapPanic) := by
  refine ⟨from_entropy_of_length32 b hb, genGo_eq rnd hr count 0,
    splitGo_no_unwrap pads hp k lines 0 0, ?_⟩
  unfold xor_inner
  exact xorGo_no_unwrap _ 0 fs

theorem encode_total_no_unwrap_witness :
    from_entropy zeros32 = some (Line.mnem zeros32) ∧
    gen_inner (fun _ => zeros32) 1 =
      .ok ((padsFrom (fun _ => zeros32) 0 1).map Line.mnem) ∧
    split (fun _ => zeros32) [] 1 ≠ .error .unwrapPanic ∧
    xor_inner [[], []] ≠ some (.error .unwrapPanic) :=
  encode_total_no_unwrap zeros32 rfl (fun _ => zeros32) (fun _ => zeros32)
    (fun _ => rfl) (fun _ => rfl) 1 1 [] [[], []]

/-- C9: for `K ≥ 2` input files of valid lines with identical line counts,
the combiner output is invariant under any permutation of the input file
order. -/
theorem combiner_permutation_invariant (fs fs2 : List (List Line)) (L : Nat)
    (hperm : fs.Perm fs2) (hK : 2 ≤ fs.length)
    (h : ∀ file ∈ fs, file.length = L ∧ file.all isValid32 = true) :
    xor_inner fs = xor_inner fs2 := by
  have h2 : ∀ file ∈ fs2, file.length = L ∧ file.all isValid32 = true :=
    fun file hf => h file (hperm.mem_iff.mpr hf)
  have hne : fs ≠ [] := by
    intro hnil
    rw [hnil] at hK
    simp at hK
  have hne2 : fs2 ≠ [] := by
    intro hnil
    subst hnil
    exact hne (List.length_eq_zero.mp (by simpa using hperm.length_eq))
  rw [xor_inner_eq_of_valid fs L hne h, xor_inner_eq_of_valid fs2 L hne2 h2,
    rowXors_perm L fs fs2 hperm]

theorem combiner_permutation_invariant_witness :
    xor_inner [[Line.mnem zeros32], [Line.mnem (List.replicate 32 1)]] =
      xor_inner [[Line.mnem (List.replicate 32 1)], [Line.mnem zeros32]] :=
  combiner_permutation_invariant _ _ 1
    (List.Perm.swap (Line.mnem (List.replicate 32 1) :: []) (Line.mnem zeros32 :: []) [])
    (by decide)
    (fun file hf => by
      rcases (by simpa using hf :
        file = [Line.mnem zeros32] ∨ file = [Line.mnem (List.replicate 32 1)]) with rfl | rfl
      · exact ⟨rfl, by decide⟩
      · exact ⟨rfl, by decide⟩)

/-- C10: for `K ≥ 2` input files each holding exactly `L` valid 24-word
lines, the combiner writes exactly `L + 1` lines: the `L` per-row XOR
combinations followed by the mnemonic encoding of 32 zero bytes, produced
from the untouched accumulator of the terminating round. -/
theorem combiner_output_closed_form (fs : List (List Line)) (L : Nat) (hK : 2 ≤ fs.length)
    (h : ∀ file ∈ fs, file.length = L ∧ file.all isValid32 = true) :
    xor_inner fs = some (.ok (rowXors L fs ++ [Line.mnem zeros32])) ∧
    (rowXors L fs).length = L := by
  have hne : fs ≠ [] := by
    intro hnil
    rw [hnil] at hK
    simp at hK
  exact ⟨xor_inner_eq_of_valid fs L hne h, rowXors_length L fs⟩

theorem combiner_output_closed_form_witness :
    xor_inner [[Line.mnem zeros32], [Line.mnem zeros32]] =
      some (.ok (rowXors 1 [[Line.mnem zeros32], [Line.mnem zeros32]] ++
        [Line.mnem zeros32])) ∧
    (rowXors 1 [[Line.mnem zeros32], [Line.mnem zeros32]]).length = 1 :=
  combiner_output_closed_form [[Line.mnem zeros32], [Line.mnem zeros32]] 1 (by decide)
    (fun file hf => by
      rcases (by simpa using hf :
        file = [Line.mnem zeros32] ∨ file = [Line.mnem zeros32]) with rfl | rfl <;>
        exact ⟨rfl, by decide⟩)

end Xoriaz
